import Mathlib

/-!
Verification development for the Legal RAG pipeline (TypeScript sources).

Shallow embedding: each relevant TypeScript function is translated into an
executable Lean definition.  JavaScript numbers on the arithmetic paths used
here (relevance scores, confidence) are modelled as exact rationals; strings
are modelled as `List Char` where character-level regex behaviour matters and
as `String` elsewhere.  Asynchronous network calls are modelled as pure
oracles passed in explicitly, with call counting where a claim speaks about
whether a call is made.
-/

namespace Legal

/-! ## Groundedness gate — `analyzeQuery` (src/src/lib/groq.ts, lines 186–225)

`Source` mirrors the `Source` interface of groq.ts; `score` is the
similarity score, an exact rational standing for the JS number. -/

structure Source where
  documentId : String
  filename : String
  content : String
  score : ℚ
  chunkIndex : ℚ
deriving DecidableEq, Repr

structure AnalysisResult where
  canAnswer : Bool
  confidence : ℚ
  reasoning : String
deriving DecidableEq, Repr

/-- `sources.reduce((sum, s) => sum + s.score, 0) / sources.length`.
For the empty list JS would give `NaN`; in the source this expression is
only evaluated after the `sources.length === 0` early return, so the
rational convention `x / 0 = 0` is never observable. -/
def avgScore (sources : List Source) : ℚ :=
  (sources.map Source.score).sum / sources.length

/-- JS `Number.prototype.toFixed(1)` on the non-negative numbers that reach
it here: one decimal digit, rounding to nearest (ties up). -/
def toFixed1 (q : ℚ) : String :=
  let n : ℤ := ⌊q * 10 + 1/2⌋
  s!"{n / 10}.{n % 10}"

/-- `analyzeQuery` from src/src/lib/groq.ts.  The `try`/`catch` wrapper of
the source cannot fire on this pure arithmetic path and is omitted. -/
def analyzeQuery (_query : String) (sources : List Source) : AnalysisResult :=
  if sources.length = 0 then
    { canAnswer := false
      confidence := 0
      reasoning := "No relevant documents found" }
  else
    let avg := avgScore sources
    let canAnswer := decide (avg ≥ 0.7) && decide (sources.length ≥ 2)
    let confidence := min (avg * 100) 95
    { canAnswer := canAnswer
      confidence := confidence
      reasoning :=
        if canAnswer then
          s!"Found {sources.length} relevant document(s) with average relevance of {toFixed1 (avg * 100)}%"
        else
          "Retrieved documents may not contain sufficient information to answer this query accurately" }

/-- C2: `canAnswer` is true iff there are at least 2 sources whose mean score
is ≥ 0.7; `confidence` is `min(mean*100, 95)` for a non-empty source list and
`0` for the empty list. -/
theorem analyzeQuery_policy (q : String) (sources : List Source) :
    ((analyzeQuery q sources).canAnswer = true ↔
      2 ≤ sources.length ∧ (7 : ℚ)/10 ≤ avgScore sources)
    ∧ (analyzeQuery q sources).confidence =
        (if sources.length = 0 then 0 else min (avgScore sources * 100) 95) := by
  unfold analyzeQuery
  by_cases h : sources.length = 0
  · simp [h]
  · simp only [h, if_neg h, if_false]
    constructor
    · simp only [Bool.and_eq_true, decide_eq_true_eq, ge_iff_le]
      constructor
      · rintro ⟨h1, h2⟩
        refine ⟨h2, ?_⟩
        calc (7 : ℚ)/10 = 0.7 := by norm_num
          _ ≤ avgScore sources := h1
      · rintro ⟨h2, h1⟩
        refine ⟨?_, h2⟩
        calc (0.7 : ℚ) = 7/10 := by norm_num
          _ ≤ avgScore sources := h1
    · trivial

/-- C9 counterexample: with scores [0.9, 0.8, 0.75] the implementation
returns confidence 245/3 ≈ 81.67, not 82 — there is no rounding. -/
def c9Sources : List Source :=
  [ { documentId := "d1", filename := "f1.pdf", content := "c1", score := 9/10, chunkIndex := 0 }
  , { documentId := "d2", filename := "f2.pdf", content := "c2", score := 4/5, chunkIndex := 1 }
  , { documentId := "d3", filename := "f3.pdf", content := "c3", score := 3/4, chunkIndex := 2 } ]

/-- C9 (as stated) is false: confidence is not 82 on scores [0.9, 0.8, 0.75]. -/
theorem analyzeQuery_c9_not_82 :
    (analyzeQuery "q" c9Sources).canAnswer = true ∧
      (analyzeQuery "q" c9Sources).confidence ≠ 82 := by
  constructor
  · norm_num [analyzeQuery, avgScore, c9Sources]
  · norm_num [analyzeQuery, avgScore, c9Sources, min_def]

/-- C9 amended: on scores [0.9, 0.8, 0.75], `canAnswer` is true and
`confidence` is exactly `min(mean*100, 95) = 245/3` — no rounding is
applied by the implementation. -/
theorem analyzeQuery_c9_exact :
    (analyzeQuery "q" c9Sources).canAnswer = true ∧
      (analyzeQuery "q" c9Sources).confidence = 245/3 := by
  constructor
  · norm_num [analyzeQuery, avgScore, c9Sources]
  · norm_num [analyzeQuery, avgScore, c9Sources, min_def]

/-! ## Text normalizer — `cleanLegalText` (src/src/lib/document-processor.ts, lines 199–212)

The five chained `String.replace` / `trim` calls are modelled over `List Char`.
JavaScript regex `\s` (also the class used by `String.prototype.trim`) is the
set below. -/

def isJsSpace (c : Char) : Bool :=
  c = '\t' || c = '\n' || c = '\x0B' || c = '\x0C' || c = '\r' || c = ' ' ||
  c = '\u00A0' || c = '\u1680' || ('\u2000' ≤ c && c ≤ '\u200A') ||
  c = '\u2028' || c = '\u2029' || c = '\u202F' ||
  c = '\u205F' || c = '\u3000' || c = '\uFEFF'

/-- `.replace(/\s+/g, " ")`: each maximal run of `\s` characters becomes a
single ASCII space.  The flag records whether the scanner is inside a run
(the space for the run was already emitted). -/
def collapseWsAux : Bool → List Char → List Char
  | _, [] => []
  | inRun, c :: cs =>
    if isJsSpace c then
      if inRun then collapseWsAux true cs else ' ' :: collapseWsAux true cs
    else c :: collapseWsAux false cs

def collapseWs (l : List Char) : List Char :=
  collapseWsAux false l

/-- Backtracking tail of the page-number regex: after the digits, `\s*`
followed by a literal `\n`.  Returns the remainder after the deepest `\n`
reachable through `\s` characters, i.e. the greedy-with-backtracking match. -/
def pnTrail : List Char → Option (List Char)
  | [] => none
  | c :: cs =>
    if isJsSpace c then
      match pnTrail cs with
      | some rest => some rest
      | none => if c = '\n' then some cs else none
    else none

/-- Matches `\s*\d+\s*\n` (the part of `/\n\s*\d+\s*\n/` after the leading
newline) at the head of `l`; returns the remainder after the match. -/
def pnMatchTail (l : List Char) : Option (List Char) :=
  let r1 := l.dropWhile isJsSpace
  let d := r1.takeWhile Char.isDigit
  let r2 := r1.dropWhile Char.isDigit
  if d.isEmpty then none else pnTrail r2

theorem dropWhile_suffix (p : Char → Bool) : ∀ l : List Char, l.dropWhile p <:+ l
  | [] => List.suffix_refl []
  | c :: cs => by
    by_cases h : p c
    · rw [List.dropWhile_cons_of_pos h]
      exact (dropWhile_suffix p cs).trans (List.suffix_cons c cs)
    · rw [List.dropWhile_cons_of_neg h]

theorem pnTrail_length_lt {l r : List Char} (h : pnTrail l = some r) :
    r.length < l.length := by
  induction l with
  | nil => simp [pnTrail] at h
  | cons c cs ih =>
    simp only [pnTrail] at h
    by_cases hs : isJsSpace c
    · simp only [hs, if_true] at h
      rcases hr : pnTrail cs with _ | r'
      · rw [hr] at h
        by_cases hn : c = '\n'
        · simp [hn] at h
          subst h
          simp
        · simp [hn] at h
      · rw [hr] at h
        simp at h
        subst h
        exact Nat.lt_trans (ih hr) (Nat.lt_succ_self _)
    · simp [hs] at h

theorem pnMatchTail_length_lt {l r : List Char} (h : pnMatchTail l = some r) :
    r.length < l.length := by
  unfold pnMatchTail at h
  by_cases hd : (List.takeWhile Char.isDigit (l.dropWhile isJsSpace)).isEmpty
  · simp [hd] at h
  · simp only [hd, if_false, Bool.false_eq_true] at h
    have h1 := pnTrail_length_lt h
    have h2 : ((l.dropWhile isJsSpace).dropWhile Char.isDigit).length <
        (l.dropWhile isJsSpace).length := by
      rcases hc : l.dropWhile isJsSpace with _ | ⟨c, cs⟩
      · rw [hc] at hd
        simp [List.isEmpty] at hd
      · rw [hc] at hd
        by_cases hcd : Char.isDigit c
        · simp only [List.dropWhile_cons_of_pos hcd]
          exact Nat.lt_succ_of_le (dropWhile_suffix Char.isDigit cs).length_le
        · simp [List.takeWhile_cons_of_neg hcd, List.isEmpty] at hd
    have h3 : (l.dropWhile isJsSpace).length ≤ l.length :=
      (dropWhile_suffix isJsSpace l).length_le
    omega

/-- `.replace(/\n\s*\d+\s*\n/g, "\n")`: global leftmost replacement; the
pattern can only start at a literal `\n`, and scanning resumes after the
replaced stretch. -/
def removePageNums : List Char → List Char
  | [] => []
  | c :: cs =>
    if c = '\n' then
      match h : pnMatchTail cs with
      | some rest => '\n' :: removePageNums rest
      | none => c :: removePageNums cs
    else c :: removePageNums cs
termination_by l => l.length
decreasing_by
  · exact Nat.lt_trans (pnMatchTail_length_lt h) (Nat.lt_succ_self _)
  · exact Nat.lt_succ_self _
  · exact Nat.lt_succ_self _

/-- The curly-double-quote replace (U+201C, U+201D to a straight double
quote) followed by the curly-single-quote replace (U+2018, U+2019 to a
straight apostrophe), fused into one character map: the two classes are
disjoint and neither output is in either class. -/
def normalizeQuoteChar (c : Char) : Char :=
  if c = '\u201C' ∨ c = '\u201D' then '"'
  else if c = '\u2018' ∨ c = '\u2019' then '\'' else c

def normalizeQuotes (l : List Char) : List Char :=
  l.map normalizeQuoteChar

def isZeroWidth (c : Char) : Bool :=
  ('\u200B' ≤ c && c ≤ '\u200D') || c = '\uFEFF'

/-- The zero-width strip: delete U+200B..U+200D and U+FEFF. -/
def removeZeroWidth (l : List Char) : List Char :=
  l.filter fun c => !isZeroWidth c

/-- `String.prototype.trim`: strip `\s` from both ends. -/
def trimJs (l : List Char) : List Char :=
  (((l.dropWhile isJsSpace).reverse).dropWhile isJsSpace).reverse

/-- `cleanLegalText` from src/src/lib/document-processor.ts: the five
replacements in source order. -/
def cleanLegalText (l : List Char) : List Char :=
  trimJs (removeZeroWidth (normalizeQuotes (removePageNums (collapseWs l))))

/-! ### Structural facts about the normalizer stages -/

/-- Every `\s` character of the text is a plain ASCII space. -/
def SpacesFlat (l : List Char) : Prop :=
  ∀ c ∈ l, isJsSpace c = true → c = ' '

/-- No two adjacent ASCII spaces. -/
def NoDoubleSpace (l : List Char) : Prop :=
  l.Chain' fun a b => ¬(a = ' ' ∧ b = ' ')

def isCurlyQuote (c : Char) : Bool :=
  c = '\u201C' || c = '\u201D' || c = '\u2018' || c = '\u2019'

def QuoteFree (l : List Char) : Prop :=
  ∀ c ∈ l, isCurlyQuote c = false

def ZwFree (l : List Char) : Prop :=
  ∀ c ∈ l, isZeroWidth c = false

/-- Neither end of the text is a `\s` character. -/
def TrimmedEnds (l : List Char) : Prop :=
  (∀ c ∈ l.head?, isJsSpace c = false) ∧ (∀ c ∈ l.reverse.head?, isJsSpace c = false)

theorem mem_collapseWsAux {c : Char} :
    ∀ (b : Bool) (l : List Char), c ∈ collapseWsAux b l → c = ' ' ∨ c ∈ l := by
  intro b l
  induction l generalizing b with
  | nil => simp [collapseWsAux]
  | cons d ds ih =>
    intro hc
    simp only [collapseWsAux] at hc
    by_cases hs : isJsSpace d
    · simp only [hs, if_true] at hc
      cases b with
      | true =>
        rcases ih true hc with h | h
        · exact Or.inl h
        · exact Or.inr (List.mem_cons_of_mem d h)
      | false =>
        rcases List.mem_cons.mp hc with h | h
        · exact Or.inl h
        · rcases ih true h with h' | h'
          · exact Or.inl h'
          · exact Or.inr (List.mem_cons_of_mem d h')
    · simp only [hs, if_false] at hc
      rcases List.mem_cons.mp hc with h | h
      · exact Or.inr (h ▸ List.mem_cons_self d ds)
      · rcases ih false h with h' | h'
        · exact Or.inl h'
        · exact Or.inr (List.mem_cons_of_mem d h')

theorem spacesFlat_collapseWsAux :
    ∀ (b : Bool) (l : List Char), SpacesFlat (collapseWsAux b l) := by
  intro b l
  induction l generalizing b with
  | nil => intro c hc; simp [collapseWsAux] at hc
  | cons d ds ih =>
    intro c hc hsp
    simp only [collapseWsAux] at hc
    by_cases hs : isJsSpace d
    · simp only [hs, if_true] at hc
      cases b with
      | true => exact ih true c hc hsp
      | false =>
        rcases List.mem_cons.mp hc with h | h
        · exact h
        · exact ih true c h hsp
    · simp only [hs, if_false] at hc
      rcases List.mem_cons.mp hc with h | h
      · subst h; rw [hsp] at hs; exact absurd rfl hs
      · exact ih false c h hsp

theorem head_collapseWsAux_true (l : List Char) :
    ∀ c ∈ (collapseWsAux true l).head?, isJsSpace c = false := by
  induction l with
  | nil => intro c hc; simp [collapseWsAux] at hc
  | cons d ds ih =>
    intro c hc
    simp only [collapseWsAux] at hc
    by_cases hs : isJsSpace d
    · simp only [hs, if_true] at hc
      exact ih c hc
    · rw [Bool.not_eq_true] at hs
      simp only [collapseWsAux, hs, Bool.false_eq_true, if_false, List.head?_cons,
        Option.mem_def, Option.some.injEq] at hc
      subst hc
      exact hs

theorem noDoubleSpace_collapseWsAux :
    ∀ (b : Bool) (l : List Char), NoDoubleSpace (collapseWsAux b l) := by
  intro b l
  induction l generalizing b with
  | nil => simp [collapseWsAux, NoDoubleSpace]
  | cons d ds ih =>
    simp only [collapseWsAux]
    by_cases hs : isJsSpace d
    · simp only [hs, if_true]
      cases b with
      | true => exact ih true
      | false =>
        refine List.chain'_cons'.mpr ⟨?_, ih true⟩
        intro y hy hcon
        have := head_collapseWsAux_true ds y hy
        rw [hcon.2] at this
        simp [isJsSpace] at this
    · simp only [hs, if_false]
      refine List.chain'_cons'.mpr ⟨?_, ih false⟩
      intro y _ hcon
      rw [hcon.1] at hs
      simp [isJsSpace] at hs

theorem collapseWsAux_true_of_head (l : List Char)
    (h : ∀ d ∈ l.head?, isJsSpace d = false) :
    collapseWsAux true l = collapseWsAux false l := by
  cases l with
  | nil => rfl
  | cons c cs =>
    have hc : isJsSpace c = false := h c (by simp)
    simp [collapseWsAux, hc]

theorem collapseWs_eq_self {l : List Char} (h1 : SpacesFlat l) (h2 : NoDoubleSpace l) :
    collapseWs l = l := by
  unfold collapseWs
  induction l with
  | nil => rfl
  | cons c cs ih =>
    have h1' : SpacesFlat cs := fun d hd => h1 d (List.mem_cons_of_mem c hd)
    have h2' : NoDoubleSpace cs := (List.chain'_cons'.mp h2).2
    by_cases hs : isJsSpace c
    · have hc : c = ' ' := h1 c (List.mem_cons_self c cs) hs
      have hhead : ∀ d ∈ cs.head?, isJsSpace d = false := by
        intro d hd
        have hR := (List.chain'_cons'.mp h2).1 d hd
        by_contra hsp
        have hd' : d = ' ' := h1' d (List.mem_of_mem_head? hd) (Bool.of_not_eq_false hsp ▸ rfl)
        exact hR ⟨hc, hd'⟩
      simp only [collapseWsAux, hs, if_true]
      rw [collapseWsAux_true_of_head cs hhead, ih h1' h2', hc]
      simp
    · rw [Bool.not_eq_true] at hs
      simp [collapseWsAux, hs, ih h1' h2']

theorem no_nl_of_spacesFlat {l : List Char} (h : SpacesFlat l) : '\n' ∉ l := by
  intro hm
  have := h '\n' hm (by decide)
  exact absurd this (by decide)

/-- The page-number replacement is the identity on newline-free text.  Inside
`cleanLegalText` it runs after the whitespace collapse, whose output never
contains a newline, so this stage never fires. -/
theorem removePageNums_eq_self : ∀ {l : List Char}, '\n' ∉ l → removePageNums l = l := by
  intro l
  induction l with
  | nil => intro _; simp [removePageNums]
  | cons c cs ih =>
    intro h
    have hc : ¬(c = '\n') := fun hc => h (hc ▸ List.mem_cons_self c cs)
    have hcs : '\n' ∉ cs := fun hm => h (List.mem_cons_of_mem c hm)
    rw [removePageNums, if_neg hc, ih hcs]

/-- With the whitespace collapse applied first, the newline-anchored
page-number regex can never match: `cleanLegalText` reduces to the other
four stages. -/
theorem cleanLegalText_pn_dead (l : List Char) :
    cleanLegalText l = trimJs (removeZeroWidth (normalizeQuotes (collapseWs l))) := by
  unfold cleanLegalText
  have h : '\n' ∉ collapseWs l := no_nl_of_spacesFlat (spacesFlat_collapseWsAux false l)
  rw [removePageNums_eq_self h]

theorem nq_isJsSpace (c : Char) : isJsSpace (normalizeQuoteChar c) = isJsSpace c := by
  unfold normalizeQuoteChar
  by_cases h1 : c = '\u201C' ∨ c = '\u201D'
  · rcases h1 with h | h <;> subst h <;> decide
  · rw [if_neg h1]
    by_cases h2 : c = '\u2018' ∨ c = '\u2019'
    · rcases h2 with h | h <;> subst h <;> decide
    · rw [if_neg h2]

theorem nq_eq_space_iff (c : Char) : normalizeQuoteChar c = ' ' ↔ c = ' ' := by
  unfold normalizeQuoteChar
  by_cases h1 : c = '\u201C' ∨ c = '\u201D'
  · rcases h1 with h | h <;> subst h <;> simp
  · rw [if_neg h1]
    by_cases h2 : c = '\u2018' ∨ c = '\u2019'
    · rcases h2 with h | h <;> subst h <;> simp
    · rw [if_neg h2]

theorem nq_quoteFree (c : Char) : isCurlyQuote (normalizeQuoteChar c) = false := by
  unfold normalizeQuoteChar
  by_cases h1 : c = '\u201C' ∨ c = '\u201D'
  · rw [if_pos h1]; decide
  · rw [if_neg h1]
    by_cases h2 : c = '\u2018' ∨ c = '\u2019'
    · rw [if_pos h2]; decide
    · rw [if_neg h2]
      push_neg at h1 h2
      simp [isCurlyQuote, h1.1, h1.2, h2.1, h2.2]

theorem nq_isZeroWidth (c : Char) : isZeroWidth (normalizeQuoteChar c) = isZeroWidth c := by
  unfold normalizeQuoteChar
  by_cases h1 : c = '\u201C' ∨ c = '\u201D'
  · rcases h1 with h | h <;> subst h <;> decide
  · rw [if_neg h1]
    by_cases h2 : c = '\u2018' ∨ c = '\u2019'
    · rcases h2 with h | h <;> subst h <;> decide
    · rw [if_neg h2]

theorem nq_eq_self {c : Char} (h : isCurlyQuote c = false) : normalizeQuoteChar c = c := by
  unfold normalizeQuoteChar
  simp only [isCurlyQuote, Bool.or_eq_false_iff, decide_eq_false_iff_not] at h
  rw [if_neg (by tauto), if_neg (by tauto)]

theorem normalizeQuotes_eq_self {l : List Char} (h : QuoteFree l) :
    normalizeQuotes l = l := by
  unfold normalizeQuotes
  induction l with
  | nil => rfl
  | cons c cs ih =>
    rw [List.map_cons, nq_eq_self (h c (List.mem_cons_self c cs)),
      ih fun d hd => h d (List.mem_cons_of_mem c hd)]

theorem spacesFlat_normalizeQuotes {l : List Char} (h : SpacesFlat l) :
    SpacesFlat (normalizeQuotes l) := by
  intro c hc hsp
  rcases List.mem_map.mp hc with ⟨d, hd, rfl⟩
  rw [nq_isJsSpace] at hsp
  rw [h d hd hsp]
  decide

theorem noDoubleSpace_normalizeQuotes {l : List Char} (h : NoDoubleSpace l) :
    NoDoubleSpace (normalizeQuotes l) := by
  unfold normalizeQuotes
  rw [NoDoubleSpace, List.chain'_map]
  refine h.imp ?_
  intro a b hab ⟨ha, hb⟩
  exact hab ⟨(nq_eq_space_iff a).mp ha, (nq_eq_space_iff b).mp hb⟩

theorem quoteFree_normalizeQuotes (l : List Char) : QuoteFree (normalizeQuotes l) := by
  intro c hc
  rcases List.mem_map.mp hc with ⟨d, _, rfl⟩
  exact nq_quoteFree d

theorem zwFree_normalizeQuotes {l : List Char} (h : ZwFree l) :
    ZwFree (normalizeQuotes l) := by
  intro c hc
  rcases List.mem_map.mp hc with ⟨d, hd, rfl⟩
  rw [nq_isZeroWidth]
  exact h d hd

theorem removeZeroWidth_eq_self {l : List Char} (h : ZwFree l) :
    removeZeroWidth l = l := by
  unfold removeZeroWidth
  induction l with
  | nil => rfl
  | cons c cs ih =>
    rw [List.filter_cons]
    rw [h c (List.mem_cons_self c cs)]
    simp only [Bool.not_false, if_true]
    rw [ih fun d hd => h d (List.mem_cons_of_mem c hd)]

/-- Zero-width characters in the U+200B..U+200D block survive the whitespace
collapse unchanged (they are not `\s`), while U+FEFF does not survive it (it
is `\s`); so after the collapse the text is zero-width-free as soon as the
original text had no U+200B..U+200D characters. -/
theorem zwFree_collapseWs {l : List Char}
    (h : ∀ c ∈ l, ¬('\u200B' ≤ c ∧ c ≤ '\u200D')) : ZwFree (collapseWs l) := by
  intro c hc
  by_contra hzw
  rw [Bool.not_eq_false] at hzw
  have hflat := spacesFlat_collapseWsAux false l c hc
  rcases mem_collapseWsAux false l hc with rfl | hmem
  · exact absurd hzw (by decide)
  · simp only [isZeroWidth, Bool.or_eq_true, Bool.and_eq_true, decide_eq_true_eq] at hzw
    rcases hzw with ⟨hlo, hhi⟩ | hfeff
    · exact h c hmem ⟨hlo, hhi⟩
    · have : c = ' ' := hflat (by rw [hfeff]; decide)
      rw [this] at hfeff
      exact absurd hfeff (by decide)

theorem head?_dropWhile (p : Char → Bool) (l : List Char) :
    ∀ c ∈ (l.dropWhile p).head?, p c = false := by
  induction l with
  | nil => intro c hc; simp at hc
  | cons d ds ih =>
    intro c hc
    by_cases hd : p d
    · rw [List.dropWhile_cons_of_pos hd] at hc
      exact ih c hc
    · rw [List.dropWhile_cons_of_neg hd] at hc
      simp only [List.head?_cons, Option.mem_def, Option.some.injEq] at hc
      subst hc
      exact Bool.of_not_eq_true hd

theorem mem_trimJs {c : Char} {l : List Char} (h : c ∈ trimJs l) : c ∈ l := by
  unfold trimJs at h
  rw [List.mem_reverse] at h
  have h1 := (dropWhile_suffix isJsSpace (l.dropWhile isJsSpace).reverse).subset h
  rw [List.mem_reverse] at h1
  exact (dropWhile_suffix isJsSpace l).subset h1

theorem noDoubleSpace_trimJs {l : List Char} (h : NoDoubleSpace l) :
    NoDoubleSpace (trimJs l) := by
  unfold trimJs
  rw [NoDoubleSpace] at h ⊢
  have hu : (l.dropWhile isJsSpace).Chain' fun a b => ¬(a = ' ' ∧ b = ' ') :=
    h.suffix (dropWhile_suffix isJsSpace l)
  have h1 : ((l.dropWhile isJsSpace).reverse).Chain'
      (flip fun a b : Char => ¬(a = ' ' ∧ b = ' ')) :=
    List.chain'_reverse.mpr hu
  have h2 := h1.suffix (dropWhile_suffix isJsSpace (l.dropWhile isJsSpace).reverse)
  exact List.chain'_reverse.mpr h2

theorem dropWhile_eq_self_of_head {p : Char → Bool} {l : List Char}
    (h : ∀ c ∈ l.head?, p c = false) : l.dropWhile p = l := by
  cases l with
  | nil => rfl
  | cons c cs =>
    have hc : p c = false := h c (by simp)
    rw [List.dropWhile_cons_of_neg (by rw [hc]; exact Bool.false_ne_true)]

theorem trimJs_eq_self {l : List Char} (h : TrimmedEnds l) : trimJs l = l := by
  unfold trimJs
  rw [dropWhile_eq_self_of_head h.1, dropWhile_eq_self_of_head h.2, List.reverse_reverse]

theorem trimmedEnds_trimJs (l : List Char) : TrimmedEnds (trimJs l) := by
  constructor
  · intro c hc
    unfold trimJs at hc
    rcases dropWhile_suffix isJsSpace (l.dropWhile isJsSpace).reverse with ⟨t, ht⟩
    rcases hv : (l.dropWhile isJsSpace).reverse.dropWhile isJsSpace with _ | ⟨d, ds⟩
    · rw [hv] at hc; simp at hc
    · rw [hv] at ht hc
      have hu : l.dropWhile isJsSpace = (d :: ds).reverse ++ t.reverse := by
        have := congrArg List.reverse ht
        simpa using this.symm
      have hne : ((d :: ds).reverse : List Char) ≠ [] := by simp
      have hh : (l.dropWhile isJsSpace).head? = ((d :: ds).reverse).head? := by
        rw [hu]
        exact List.head?_append_of_ne_nil _ hne
      rw [← hh] at hc
      exact head?_dropWhile isJsSpace l c hc
  · intro c hc
    unfold trimJs at hc
    rw [List.reverse_reverse] at hc
    exact head?_dropWhile isJsSpace (l.dropWhile isJsSpace).reverse c hc

/-- The canonical shape of normalizer output (on inputs free of
U+200B..U+200D): all whitespace is single ASCII spaces, no curly quotes, no
zero-width characters, no leading/trailing whitespace. -/
def CanonText (l : List Char) : Prop :=
  SpacesFlat l ∧ NoDoubleSpace l ∧ QuoteFree l ∧ ZwFree l ∧ TrimmedEnds l

theorem canonText_clean (x : List Char)
    (hx : ∀ c ∈ x, ¬('​' ≤ c ∧ c ≤ '‍')) : CanonText (cleanLegalText x) := by
  rw [cleanLegalText_pn_dead]
  have h1 : SpacesFlat (collapseWs x) := spacesFlat_collapseWsAux false x
  have h2 : NoDoubleSpace (collapseWs x) := noDoubleSpace_collapseWsAux false x
  have h3 : ZwFree (collapseWs x) := zwFree_collapseWs hx
  have g1 : SpacesFlat (normalizeQuotes (collapseWs x)) := spacesFlat_normalizeQuotes h1
  have g2 : NoDoubleSpace (normalizeQuotes (collapseWs x)) := noDoubleSpace_normalizeQuotes h2
  have g3 : QuoteFree (normalizeQuotes (collapseWs x)) := quoteFree_normalizeQuotes _
  have g4 : ZwFree (normalizeQuotes (collapseWs x)) := zwFree_normalizeQuotes h3
  rw [removeZeroWidth_eq_self g4]
  exact ⟨fun c hc => g1 c (mem_trimJs hc),
    noDoubleSpace_trimJs g2,
    fun c hc => g3 c (mem_trimJs hc),
    fun c hc => g4 c (mem_trimJs hc),
    trimmedEnds_trimJs _⟩

theorem cleanLegalText_eq_self_of_canon {l : List Char} (h : CanonText l) :
    cleanLegalText l = l := by
  obtain ⟨h1, h2, h3, h4, h5⟩ := h
  unfold cleanLegalText
  rw [collapseWs_eq_self h1 h2, removePageNums_eq_self (no_nl_of_spacesFlat h1),
    normalizeQuotes_eq_self h3, removeZeroWidth_eq_self h4, trimJs_eq_self h5]

/-- C5 amended: the normalizer is idempotent on every input containing no
zero-width character U+200B..U+200D.  (On inputs that do contain one,
deleting it after the whitespace collapse can join two spaces, which a
second pass collapses — see the counterexample.) -/
theorem cleanLegalText_idempotent_no_zw (x : List Char)
    (hx : ∀ c ∈ x, ¬('​' ≤ c ∧ c ≤ '‍')) :
    cleanLegalText (cleanLegalText x) = cleanLegalText x :=
  cleanLegalText_eq_self_of_canon (canonText_clean x hx)

def c5Witness : List Char :=
  [' ', 'A', '\n', ' ', 'B', '“', 'x', '”', '.', ' ']

/-- C5 witness: the amended idempotence theorem applied at a concrete input. -/
theorem cleanLegalText_idempotent_no_zw_witness :
    (∀ c ∈ c5Witness, ¬('​' ≤ c ∧ c ≤ '‍')) ∧
      cleanLegalText (cleanLegalText c5Witness) = cleanLegalText c5Witness :=
  ⟨by decide, cleanLegalText_idempotent_no_zw c5Witness (by decide)⟩

def c5Bad : List Char := ['a', ' ', '​', ' ', 'b']

/-- C5 counterexample: on `"a ​ b"` the zero-width strip (which runs
after the whitespace collapse) glues two spaces together, so a second
normalize differs from the first. -/
theorem cleanLegalText_not_idempotent :
    cleanLegalText (cleanLegalText c5Bad) ≠ cleanLegalText c5Bad := by
  simp only [cleanLegalText_pn_dead]
  decide

def c6Text : List Char := ['F', 'o', 'o', '\n', '2', '\n', 'B', 'a', 'r']

/-- C6: the bare page number `2` on its own line is NOT stripped by
`cleanLegalText` — the whitespace collapse runs first and removes every
newline, so the newline-anchored page-number regex (which by itself would
strip the line, second conjunct) can never match. -/
theorem cleanLegalText_page_number_survives :
    cleanLegalText c6Text = ['F', 'o', 'o', ' ', '2', ' ', 'B', 'a', 'r'] ∧
      removePageNums c6Text = ['F', 'o', 'o', '\n', 'B', 'a', 'r'] := by
  constructor
  · rw [cleanLegalText_pn_dead]
    decide
  · have e1 : pnMatchTail ['2', '\n', 'B', 'a', 'r'] = some ['B', 'a', 'r'] := by decide
    have e2 : pnMatchTail ['o', 'o', '\n', '2', '\n', 'B', 'a', 'r'] = none := by decide
    have e3 : pnMatchTail ['o', '\n', '2', '\n', 'B', 'a', 'r'] = none := by decide
    have e4 : pnMatchTail ['\n', '2', '\n', 'B', 'a', 'r'] = some ['B', 'a', 'r'] := by decide
    have e5 : pnMatchTail ['\n', 'B', 'a', 'r'] = none := by decide
    have e6 : pnMatchTail ['B', 'a', 'r'] = none := by decide
    have e7 : pnMatchTail ['a', 'r'] = none := by decide
    have e8 : pnMatchTail ['r'] = none := by decide
    have e9 : pnMatchTail [] = none := by decide
    simp [c6Text, removePageNums, e2, e3, e4, e5, e6, e7, e8, e9]
    split
    · rename_i rest hrest
      rw [e1] at hrest
      injection hrest with hr
      subst hr
      simp [removePageNums]
    · rename_i hnone
      rw [e1] at hnone
      exact absurd hnone (by simp)

/-! ## Chunker — `chunkDocument` (src/src/lib/document-processor.ts, lines 131–166)

The splitter itself is the langchain `RecursiveCharacterTextSplitter`, an
external library, so it is modelled from the spec; the offset computation
mapped over its output is translated from the repository source. -/

structure DocumentChunk where
  content : List Char
  chunkIndex : Nat
  startChar : Nat
  endChar : Nat
  filename : String
deriving DecidableEq, Repr, Inhabited

/-- Split on an occurrence of `sep`; `acc` is the reversed current segment.
The fuel (one unit per consumed character) only serves structural
termination; `splitOnSeq` supplies enough. -/
def splitOnSeqGo (sep : List Char) : Nat → List Char → List Char → List (List Char)
  | 0, acc, l => [acc.reverse ++ l]
  | _ + 1, acc, [] => [acc.reverse]
  | fuel + 1, acc, c :: cs =>
    if sep.isPrefixOf (c :: cs) then
      acc.reverse :: splitOnSeqGo sep fuel [] ((c :: cs).drop sep.length)
    else
      splitOnSeqGo sep fuel (c :: acc) cs

/-- JS `String.prototype.split`: on the empty separator, split into single
characters; otherwise split on each occurrence of the separator. -/
def splitOnSeq (sep : List Char) (l : List Char) : List (List Char) :=
  if sep.isEmpty then l.map fun c => [c]
  else splitOnSeqGo sep l.length [] l

/-- Modelled from the spec: the Chunker's recursive splitter (langchain's
`RecursiveCharacterTextSplitter`, not part of this repository's sources).
Per spec section 4.3: split by a priority list of separators, attempting the
coarsest separator first and falling back to a finer one only for candidate
segments still exceeding `chunkSize`; the character-level fallback (empty
separator) guarantees every emitted chunk is within `chunkSize`.  The
library's re-merging of small adjacent splits with trailing overlap is not
modelled (for the inputs used below the segments are too large to merge),
nor is the dropping of empty segments; the offset formula under
verification is independent of both. -/
def splitRecursive (chunkSize : Nat) : List (List Char) → List Char → List (List Char)
  | [], text => [text]
  | sep :: rest, text =>
    if text.length ≤ chunkSize then [text]
    else
      ((splitOnSeq sep text).map fun seg =>
        if seg.length ≤ chunkSize then [seg] else splitRecursive chunkSize rest seg).flatten

/-- The separator priority list of `chunkDocument`. -/
def legalSeparators : List (List Char) :=
  [['\n', '\n', '\n'], ['\n', '\n'], ['\n'], ['.', ' '], [' '], []]

/-- JS `Array.prototype.map((x, index) => ...)`. -/
def mapWithIndex (f : Nat → α → β) : Nat → List α → List β
  | _, [] => []
  | i, a :: as => f i a :: mapWithIndex f (i + 1) as

/-- `chunkDocument` from src/src/lib/document-processor.ts: offsets are
computed by the fixed-stride formula `index * (chunkSize - chunkOverlap)`,
not from the chunk's actual position in the text. -/
def chunkDocument (text : List Char) (filename : String)
    (chunkSize : Nat := 1000) (chunkOverlap : Nat := 200) : List DocumentChunk :=
  mapWithIndex
    (fun index chunk =>
      { content := chunk
        chunkIndex := index
        startChar := index * (chunkSize - chunkOverlap)
        endChar := index * (chunkSize - chunkOverlap) + chunk.length
        filename := filename })
    0 (splitRecursive chunkSize legalSeparators text)

theorem mapWithIndex_length (f : Nat → α → β) :
    ∀ (k : Nat) (l : List α), (mapWithIndex f k l).length = l.length := by
  intro k l
  induction l generalizing k with
  | nil => rfl
  | cons a as ih => simp [mapWithIndex, ih]

theorem mapWithIndex_getElem (f : Nat → α → β) :
    ∀ (k : Nat) (l : List α) (i : Nat) (h : i < l.length)
      (h' : i < (mapWithIndex f k l).length),
      getElem (mapWithIndex f k l) i h' = f (k + i) (getElem l i h) := by
  intro k l
  induction l generalizing k with
  | nil => intro i h _; exact absurd h (by simp)
  | cons a as ih =>
    intro i h h'
    cases i with
    | zero => simp [mapWithIndex]
    | succ j =>
      have hj : j < as.length := by simpa using h
      have hj' : j < (mapWithIndex f (k + 1) as).length := by
        rw [mapWithIndex_length]; exact hj
      simp only [mapWithIndex, List.getElem_cons_succ]
      rw [ih (k + 1) j hj hj']
      ring_nf

def c7Text : List Char :=
  List.replicate 400 'a' ++ ['\n', '\n', '\n'] ++ List.replicate 300 'b' ++
    ['\n', '\n', '\n'] ++ List.replicate 400 'c'

set_option maxRecDepth 100000 in
/-- C7 counterexample: a 1106-character document with paragraphs of 400, 300
and 400 characters yields three chunks of those lengths, but the recorded
offsets use the fixed stride 800, so chunk 1 starts at 800 while chunk 0
ends at 400: the required overlap (start ≤ end − 200, i.e.
start + 200 ≤ end) fails on the pair (0, 1), whose second chunk is not the
last of the three — the pair is not covered by the claim's "except possibly
the last chunk" exemption. -/
theorem chunkDocument_overlap_violated :
    (chunkDocument c7Text "contract.txt" 1000 200).length = 3 ∧
      ¬((chunkDocument c7Text "contract.txt" 1000 200)[1]!.startChar + 200 ≤
        (chunkDocument c7Text "contract.txt" 1000 200)[0]!.endChar) := by
  decide

theorem chunkDocument_offsets (text : List Char) (filename : String) (cs co j : Nat)
    (h : j < (chunkDocument text filename cs co).length) :
    (chunkDocument text filename cs co)[j]!.startChar = j * (cs - co) ∧
      (chunkDocument text filename cs co)[j]!.endChar =
        j * (cs - co) + (chunkDocument text filename cs co)[j]!.content.length := by
  rw [getElem!_pos (chunkDocument text filename cs co) j h]
  have hj : j < (splitRecursive cs legalSeparators text).length := by
    unfold chunkDocument at h
    rw [mapWithIndex_length] at h
    exact h
  unfold chunkDocument
  rw [mapWithIndex_getElem _ 0 _ j hj]
  simp

/-- C7 amended: with chunkSize 1000 and overlap 200 the recorded offsets
satisfy `start(i+1) + 200 ≤ end(i)` exactly when chunk `i`'s content has at
least 1000 characters (the offsets use a fixed stride of 800, so the bound
holds only for full-length chunks, not in general for non-final chunks). -/
theorem chunkDocument_overlap_of_full (text : List Char) (filename : String)
    (i : Nat) (h : i + 1 < (chunkDocument text filename 1000 200).length)
    (hfull : 1000 ≤ (chunkDocument text filename 1000 200)[i]!.content.length) :
    (chunkDocument text filename 1000 200)[i+1]!.startChar + 200 ≤
      (chunkDocument text filename 1000 200)[i]!.endChar := by
  have hi : i < (chunkDocument text filename 1000 200).length := by omega
  obtain ⟨hs1, _⟩ := chunkDocument_offsets text filename 1000 200 (i + 1) h
  obtain ⟨_, he0⟩ := chunkDocument_offsets text filename 1000 200 i hi
  rw [hs1, he0]
  have : (1000 : Nat) - 200 = 800 := by norm_num
  rw [this]
  calc (i + 1) * 800 + 200 = i * 800 + 1000 := by ring
    _ ≤ i * 800 + (chunkDocument text filename 1000 200)[i]!.content.length := by omega

def c7Full : List Char :=
  List.replicate 1000 'a' ++ ['\n', '\n', '\n'] ++ List.replicate 10 'b'

set_option maxRecDepth 100000 in
/-- C7 witness for the amended theorem: a full 1000-character chunk followed
by a second chunk does satisfy the overlap bound. -/
theorem chunkDocument_overlap_of_full_witness :
    (0 + 1 < (chunkDocument c7Full "contract.txt" 1000 200).length ∧
      1000 ≤ (chunkDocument c7Full "contract.txt" 1000 200)[0]!.content.length) ∧
      (chunkDocument c7Full "contract.txt" 1000 200)[0+1]!.startChar + 200 ≤
        (chunkDocument c7Full "contract.txt" 1000 200)[0]!.endChar :=
  ⟨⟨by decide, by decide⟩,
    chunkDocument_overlap_of_full c7Full "contract.txt" 0 (by decide) (by decide)⟩

/-! ## Embedding client — `generateEmbeddingsBatch` (src/src/lib/embeddings.ts, lines 93–111)

The remote Cohere call `generateEmbeddings` is modelled as a pure oracle
returning one embedding per input text (the provider contract), and the
batch loop counts how many such calls it makes.  The JS `for` loop
`for (i = 0; i < texts.length; i += batchSize)` is modelled with explicit
fuel (one unit per iteration): `none` means the loop is still running after
`fuel` iterations, which for `batchSize = 0` is the case for every fuel —
the source loop never terminates then. -/

def generateEmbeddingsOracle (f : String → List ℚ) (texts : List String) : List (List ℚ) :=
  texts.map f

def generateEmbeddingsBatchGo (f : String → List ℚ) (texts : List String)
    (batchSize : Nat) :
    Nat → Nat → List (List ℚ) → Nat → Option (List (List ℚ) × Nat)
  | 0, i, acc, calls =>
    if i < texts.length then none else some (acc, calls)
  | fuel + 1, i, acc, calls =>
    if i < texts.length then
      generateEmbeddingsBatchGo f texts batchSize fuel (i + batchSize)
        (acc ++ generateEmbeddingsOracle f ((texts.drop i).take batchSize)) (calls + 1)
    else some (acc, calls)

/-- `generateEmbeddingsBatch` with the given iteration budget; returns the
concatenated embeddings and the number of network calls made. -/
def generateEmbeddingsBatch (f : String → List ℚ) (texts : List String)
    (batchSize : Nat) (fuel : Nat) : Option (List (List ℚ) × Nat) :=
  generateEmbeddingsBatchGo f texts batchSize fuel 0 [] 0

theorem generateEmbeddingsBatchGo_spec (f : String → List ℚ) (texts : List String)
    (bs : Nat) (hbs : 1 ≤ bs) :
    ∀ (fuel i : Nat) (acc : List (List ℚ)) (calls : Nat),
      texts.length ≤ i + fuel →
      ∃ c, generateEmbeddingsBatchGo f texts bs fuel i acc calls =
        some (acc ++ (texts.drop i).map f, c) := by
  intro fuel
  induction fuel with
  | zero =>
    intro i acc calls hle
    have hni : ¬(i < texts.length) := by omega
    have hdrop : texts.drop i = [] := List.drop_eq_nil_of_le (by omega)
    exact ⟨calls, by simp [generateEmbeddingsBatchGo, hni, hdrop]⟩
  | succ fuel ih =>
    intro i acc calls hle
    by_cases hi : i < texts.length
    · obtain ⟨c, hc⟩ := ih (i + bs) (acc ++ generateEmbeddingsOracle f ((texts.drop i).take bs))
        (calls + 1) (by omega)
      refine ⟨c, ?_⟩
      rw [generateEmbeddingsBatchGo, if_pos hi, hc]
      have hsplit : (texts.drop i).map f =
          ((texts.drop i).take bs).map f ++ (texts.drop (i + bs)).map f := by
        have h1 : (texts.drop i).drop bs = texts.drop (i + bs) := by
          rw [List.drop_drop, Nat.add_comm]
        rw [← h1, ← List.map_append, List.take_append_drop]
      rw [hsplit, generateEmbeddingsOracle, List.append_assoc]
    · have hdrop : texts.drop i = [] := List.drop_eq_nil_of_le (by omega)
      exact ⟨calls, by simp [generateEmbeddingsBatchGo, hi, hdrop]⟩

/-- C8 amended: the empty input returns the empty list with zero network
calls (and no fuel needed); and for every batch size ≥ 1, the loop
terminates within `texts.length` iterations and returns exactly one vector
per input text, in input order (`texts.map f`). -/
theorem generateEmbeddingsBatch_spec (f : String → List ℚ) (texts : List String)
    (bs : Nat) (hbs : 1 ≤ bs) :
    generateEmbeddingsBatch f [] bs 0 = some ([], 0) ∧
      (generateEmbeddingsBatch f texts bs texts.length).map Prod.fst =
        some (texts.map f) := by
  constructor
  · rfl
  · obtain ⟨c, hc⟩ := generateEmbeddingsBatchGo_spec f texts bs hbs texts.length 0 [] 0
      (by omega)
    rw [generateEmbeddingsBatch, hc]
    simp

/-- C8 witness: three texts with batch size 2 give three embeddings in
order. -/
theorem generateEmbeddingsBatch_spec_witness :
    1 ≤ 2 ∧
      (generateEmbeddingsBatch (fun s => [(s.length : ℚ)]) [] 2 0 = some ([], 0) ∧
        (generateEmbeddingsBatch (fun s => [(s.length : ℚ)]) ["x", "yy", "zzz"] 2
            ["x", "yy", "zzz"].length).map Prod.fst =
          some (["x", "yy", "zzz"].map fun s => [(s.length : ℚ)])) :=
  ⟨by decide, generateEmbeddingsBatch_spec (fun s => [(s.length : ℚ)]) ["x", "yy", "zzz"] 2
    (by decide)⟩

/-- The loop makes no progress when the batch size is 0: for every fuel the
run is still unfinished, i.e. the source loop never returns. -/
def BatchDiverges (f : String → List ℚ) (texts : List String) (bs : Nat) : Prop :=
  ∀ fuel, generateEmbeddingsBatch f texts bs fuel = none

theorem generateEmbeddingsBatchGo_zero_none (f : String → List ℚ)
    (texts : List String) (hne : 0 < texts.length) :
    ∀ (fuel : Nat) (acc : List (List ℚ)) (calls : Nat),
      generateEmbeddingsBatchGo f texts 0 fuel 0 acc calls = none := by
  intro fuel
  induction fuel with
  | zero => intro acc calls; simp [generateEmbeddingsBatchGo, hne]
  | succ fuel ih =>
    intro acc calls
    rw [generateEmbeddingsBatchGo, if_pos hne]
    exact ih _ _

/-- C8 counterexample: with batch size 0 and a single text, `i += batchSize`
never advances, so the call never returns any list of vectors — the claim
fails for that batch size. -/
theorem generateEmbeddingsBatch_zero_diverges :
    BatchDiverges (fun _ => [0]) ["a"] 0 := by
  intro fuel
  exact generateEmbeddingsBatchGo_zero_none _ _ (by decide) fuel [] 0


/-! ## Vector index — `queryVectors` (src/src/lib/vector-store.ts, lines 140–194)

The Pinecone `index.query` network call is modelled as an arbitrary list of
raw matches; the provider contract — every returned match satisfies the
metadata filter sent with the query — is a hypothesis of the owner-scoping
theorem.  The post-processing of the response (the score filter and the
metadata coercion with JS `||` defaults) is translated from the source. -/

structure VectorMetadata where
  documentId : String
  userId : String
  chunkIndex : ℚ
  content : String
  filename : String
  fileType : String
  timestamp : String
deriving DecidableEq, Repr

/-- Metadata as stored on a Pinecone match: any field may be absent. -/
structure RawMetadata where
  documentId : Option String
  userId : Option String
  chunkIndex : Option ℚ
  content : Option String
  filename : Option String
  fileType : Option String
  timestamp : Option String
deriving DecidableEq, Repr

structure RawMatch where
  id : String
  score : Option ℚ
  metadata : Option RawMetadata
deriving DecidableEq, Repr

structure ScoredVector where
  id : String
  score : ℚ
  metadata : VectorMetadata
deriving DecidableEq, Repr

/-- The filter object built by `queryVectors`:
`{ userId: { $eq: userId } }`, plus `documentId: { $in: documentIds }` when
a non-empty id list is supplied. -/
structure PineconeFilter where
  userIdEq : String
  documentIdIn : Option (List String)
deriving DecidableEq, Repr

def buildFilter (userId : String) (documentIds : Option (List String)) : PineconeFilter :=
  { userIdEq := userId
    documentIdIn :=
      match documentIds with
      | some ids => if 0 < ids.length then some ids else none
      | none => none }

/-- Pinecone metadata-filter semantics for the filter built above: a match
satisfies it iff its metadata carries `userId` equal to the requested owner,
and, when a `$in` clause is present, a `documentId` among the listed ids; a
vector lacking the field does not match. -/
def FilterAccepts (flt : PineconeFilter) (m : RawMatch) : Prop :=
  ∃ md, m.metadata = some md ∧ md.userId = some flt.userIdEq ∧
    ∀ ids, flt.documentIdIn = some ids → ∃ d, md.documentId = some d ∧ d ∈ ids

/-- JS truthiness of `match.score`: absent, 0 (and NaN, which ℚ lacks) are
falsy. -/
def scoreTruthy : Option ℚ → Bool
  | none => false
  | some q => decide (q ≠ 0)

/-- The metadata coercion of `queryVectors` (lines 174–185): each field is
read with a `||` default; the timestamp default is the current time. -/
def coerceMetadata (now : String) (md : RawMetadata) : VectorMetadata :=
  { documentId := md.documentId.getD ""
    userId := md.userId.getD ""
    chunkIndex := md.chunkIndex.getD 0
    content := md.content.getD ""
    filename := md.filename.getD ""
    fileType := md.fileType.getD ""
    timestamp := md.timestamp.getD now }

def emptyRawMetadata : RawMetadata :=
  { documentId := none, userId := none, chunkIndex := none, content := none
    filename := none, fileType := none, timestamp := none }

/-- Post-processing of the Pinecone response in `queryVectors`:
`matches.filter(m => m.score && m.score >= minScore).map(...)`. -/
def queryVectors (now : String) (minScore : ℚ) (ms : List RawMatch) :
    List ScoredVector :=
  (ms.filter fun m => scoreTruthy m.score && decide (m.score.getD 0 ≥ minScore)).map
    fun m =>
      { id := m.id
        score := m.score.getD 0
        metadata := coerceMetadata now (m.metadata.getD emptyRawMetadata) }

/-- C1: if the provider honours the metadata filter sent by `queryVectors`
(owner-scope `$eq` plus optional documentId `$in`), then every returned
vector carries the requesting owner's id — for every option combination. -/
theorem queryVectors_owner_scoped (now userId : String)
    (documentIds : Option (List String)) (minScore : ℚ) (ms : List RawMatch)
    (hprov : ∀ m ∈ ms, FilterAccepts (buildFilter userId documentIds) m) :
    ∀ v ∈ queryVectors now minScore ms, v.metadata.userId = userId := by
  intro v hv
  unfold queryVectors at hv
  rcases List.mem_map.mp hv with ⟨m, hm, rfl⟩
  have hmem : m ∈ ms := List.mem_of_mem_filter hm
  obtain ⟨md, hmd, huid, _⟩ := hprov m hmem
  simp only [coerceMetadata, hmd, Option.getD_some]
  rw [huid]
  rfl

def c1Metadata : RawMetadata :=
  { documentId := some "d1"
    userId := some "u1"
    chunkIndex := some 0
    content := some "text"
    filename := some "a.pdf"
    fileType := some "pdf"
    timestamp := some "t0" }

def c1Match : RawMatch :=
  { id := "v1"
    score := some (4/5)
    metadata := some c1Metadata }

/-- C1 witness: one well-formed match for owner `u1` is returned with owner
metadata `u1`. -/
theorem queryVectors_owner_scoped_witness :
    (∀ m ∈ [c1Match], FilterAccepts (buildFilter "u1" none) m) ∧
      ∀ v ∈ queryVectors "t1" (7/10) [c1Match], v.metadata.userId = "u1" := by
  have hprov : ∀ m ∈ [c1Match], FilterAccepts (buildFilter "u1" none) m := by
    intro m hm
    rw [List.mem_singleton] at hm
    subst hm
    exact ⟨_, rfl, rfl, by intro ids h; simp [buildFilter] at h⟩
  exact ⟨hprov, queryVectors_owner_scoped "t1" "u1" none (7/10) [c1Match] hprov⟩

/-- C10: the score filter tests truthiness before comparing with `minScore`,
so a match whose score is absent or 0 is never returned — even though for
`minScore ≤ 0` such a score satisfies `score ≥ minScore`. -/
theorem queryVectors_drops_zero_score (now : String) (minScore : ℚ)
    (hms : minScore ≤ 0) (m : RawMatch) (hm : m.score = none ∨ m.score = some 0)
    (pre post : List RawMatch) :
    (0 : ℚ) ≥ minScore ∧
      queryVectors now minScore (pre ++ m :: post) =
        queryVectors now minScore (pre ++ post) := by
  refine ⟨hms, ?_⟩
  unfold queryVectors
  rw [List.filter_append, List.filter_append, List.filter_cons]
  rcases hm with hm | hm <;>
    simp [scoreTruthy, hm]

def c10Match : RawMatch :=
  { id := "v0"
    score := some 0
    metadata := some c1Metadata }

/-- C10 witness: with `minScore = 0`, the zero-scored match is dropped
although `0 ≥ minScore` holds. -/
theorem queryVectors_drops_zero_score_witness :
    ((0 : ℚ) ≤ 0 ∧ (c10Match.score = none ∨ c10Match.score = some 0)) ∧
      (0 : ℚ) ≥ 0 ∧
        queryVectors "t1" 0 ([] ++ c10Match :: [c1Match]) =
          queryVectors "t1" 0 ([] ++ [c1Match]) :=
  ⟨⟨le_refl 0, Or.inr rfl⟩,
    queryVectors_drops_zero_score "t1" 0 (le_refl 0) c10Match (Or.inr rfl) [] [c1Match]⟩


/-! ## Chat endpoint — `POST` (src/unnamed/part_001, lines 23–225)

Model of the handler's behaviour after its guards (authentication, empty
message, conversation creation) have passed: the retrieval result, the
stored history and the language-model output are environment inputs; the
observable effects — message inserts and Answer Composer invocations — are
recorded as a trace.  `generateResponse` and `generateStreamingResponse`
both surface as a `composerCall` effect (with the stream flag). -/

structure ChatMessage where
  role : String
  content : String
deriving DecidableEq, Repr

structure SourceRef where
  documentId : String
  filename : String
  score : ℚ
  chunkIndex : ℚ
deriving DecidableEq, Repr

inductive ChatEffect
  | insertMessage (conversationId : String) (role : String) (content : String)
      (sources : List SourceRef) (analysis : Option AnalysisResult)
  | composerCall (streaming : Bool)
deriving DecidableEq, Repr

structure ChatEnv where
  userId : String
  message : String
  conversationId : Option String
  stream : Bool
  newConversationId : String
  retrieved : List ScoredVector
  history : List ChatMessage
  llmOutput : String
deriving DecidableEq, Repr

/-- Lines 81–87: the retrieved vectors formatted as sources. -/
def toSource (v : ScoredVector) : Source :=
  { documentId := v.metadata.documentId
    filename := v.metadata.filename
    content := v.metadata.content
    score := v.score
    chunkIndex := v.metadata.chunkIndex }

def toSourceRef (s : Source) : SourceRef :=
  { documentId := s.documentId
    filename := s.filename
    score := s.score
    chunkIndex := s.chunkIndex }

/-- The fixed refusal template of lines 93–99, parameterised only by the
analysis reasoning it interpolates. -/
def refusalTemplate (reasoning : String) : String :=
  "I apologize, but I don't have sufficient information in the uploaded documents to answer your question accurately.\n\n"
    ++ reasoning
    ++ "\n\nPlease ensure you've uploaded relevant legal documents that contain information about your query. You can upload documents using the upload feature.\n\n**Disclaimer:** This system provides information based solely on uploaded documents and is not a substitute for professional legal advice."

structure ChatResult where
  response : String
  effects : List ChatEffect
deriving DecidableEq, Repr

def handleChatPOST (env : ChatEnv) : ChatResult :=
  let convId := env.conversationId.getD env.newConversationId
  let userInsert := ChatEffect.insertMessage convId "user" env.message [] none
  let sources := env.retrieved.map toSource
  let analysis := analyzeQuery env.message sources
  if analysis.canAnswer then
    let content := env.llmOutput
    { response := content
      effects := [userInsert, ChatEffect.composerCall env.stream,
        ChatEffect.insertMessage convId "assistant" content (sources.map toSourceRef)
          (some analysis)] }
  else
    let response := refusalTemplate analysis.reasoning
    { response := response
      effects := [userInsert,
        ChatEffect.insertMessage convId "assistant" response [] (some analysis)] }

/-- C3: whenever the groundedness analysis reports `canAnswer = false`, the
handler makes no Answer Composer call (streaming or not), returns the fixed
refusal template, and persists that same template as the turn's assistant
message. -/
theorem chat_refusal_skips_composer (env : ChatEnv)
    (h : (analyzeQuery env.message (env.retrieved.map toSource)).canAnswer = false) :
    (∀ e ∈ (handleChatPOST env).effects, ∀ b, e ≠ ChatEffect.composerCall b) ∧
      (handleChatPOST env).response =
        refusalTemplate (analyzeQuery env.message (env.retrieved.map toSource)).reasoning ∧
      ChatEffect.insertMessage (env.conversationId.getD env.newConversationId) "assistant"
          (refusalTemplate (analyzeQuery env.message (env.retrieved.map toSource)).reasoning)
          [] (some (analyzeQuery env.message (env.retrieved.map toSource)))
        ∈ (handleChatPOST env).effects := by
  unfold handleChatPOST
  simp only [h, Bool.false_eq_true, if_false]
  refine ⟨?_, trivial, ?_⟩
  · intro e he b
    simp only [List.mem_cons, List.mem_singleton, List.not_mem_nil] at he
    rcases he with rfl | rfl | he
    · intro hne; cases hne
    · intro hne; cases hne
    · simp at he
  · simp

def c3Env : ChatEnv :=
  { userId := "u1"
    message := "What does the contract say?"
    conversationId := none
    stream := false
    newConversationId := "c1"
    retrieved := []
    history := []
    llmOutput := "unused" }

/-- C3 witness: with no retrieved sources the gate reports
`canAnswer = false` and the handler takes the refusal path. -/
theorem chat_refusal_skips_composer_witness :
    (analyzeQuery c3Env.message (c3Env.retrieved.map toSource)).canAnswer = false ∧
      ((∀ e ∈ (handleChatPOST c3Env).effects, ∀ b, e ≠ ChatEffect.composerCall b) ∧
        (handleChatPOST c3Env).response =
          refusalTemplate (analyzeQuery c3Env.message (c3Env.retrieved.map toSource)).reasoning ∧
        ChatEffect.insertMessage (c3Env.conversationId.getD c3Env.newConversationId)
            "assistant"
            (refusalTemplate (analyzeQuery c3Env.message (c3Env.retrieved.map toSource)).reasoning)
            [] (some (analyzeQuery c3Env.message (c3Env.retrieved.map toSource)))
          ∈ (handleChatPOST c3Env).effects) :=
  ⟨rfl, chat_refusal_skips_composer c3Env rfl⟩


/-! ## Ingestion orchestrator — `processDocumentAsync`
(src/src/app/api/documents/upload/route.ts, lines 143–305)

The awaited external operations (extraction with its timeout race, the
embedding batch, the vector upsert with its timeout race, the per-batch
chunk inserts, the final status update, and the failure status update) are
environment inputs; `Except.error` models a JS throw / rejected promise.
Normalization and chunking reuse the definitions translated above.  The
best-effort progress updates (lines 156–172) swallow their own errors and
touch only progress metadata, so they cannot alter the outcome modelled
here. -/

inductive DocStatus
  | processing
  | completed
  | failed
deriving DecidableEq, Repr

/-- The Document row fields this claim observes. -/
structure DocumentRecord where
  status : DocStatus
  metadataError : Option String
  metadataProcessingTimeSeconds : Option Nat
  totalChunks : Option Nat
deriving DecidableEq, Repr

structure IngestEnv where
  /-- `processDocument` under the 60 s timeout race: extracted text and word
  count, or the thrown error message. -/
  extractResult : Except String (List Char × Nat)
  /-- `generateEmbeddingsBatch`: the embeddings, or the thrown error. -/
  embedResult : Except String (List (List ℚ))
  /-- `upsertVectors` under the 120 s timeout race: vector ids or error. -/
  upsertResult : Except String (List String)
  /-- Supabase error of the n-th `document_chunks` insert batch, if any. -/
  chunkInsertErrors : List (Option String)
  /-- Error of the final `status: "completed"` update, if any. -/
  finalUpdateError : Option String
  /-- Whether the catch-handler's `status: "failed"` update write succeeds
  (the source wraps it in its own try/catch). -/
  failedUpdateSucceeds : Bool
  /-- `Math.round((Date.now() - startTime) / 1000)`. -/
  elapsedSeconds : Nat
deriving Repr

/-- The `try` body of `processDocumentAsync`: first thrown error wins. -/
def ingestOutcome (env : IngestEnv) (filename : String) : Except String (Nat × Nat) := do
  let (text, wordCount) ← env.extractResult
  let cleanedText := cleanLegalText text
  if cleanedText.isEmpty ∨ trimJs cleanedText = [] then
    throw "Document appears to be empty or could not extract text"
  let chunks := chunkDocument cleanedText filename 1000 200
  if chunks.length = 0 then
    throw "No chunks created from document"
  let embeddings ← env.embedResult
  if embeddings.length ≠ chunks.length then
    throw s!"Embedding count mismatch: expected {chunks.length}, got {embeddings.length}"
  let _vectorIds ← env.upsertResult
  match (env.chunkInsertErrors.take ((chunks.length + 99) / 100)).findSome? id with
  | some e => throw s!"Failed to insert chunks batch: {e}"
  | none => pure ()
  match env.finalUpdateError with
  | some e => throw s!"Failed to update document status: {e}"
  | none => pure (wordCount, chunks.length)

/-- The Document row after `processDocumentAsync` finishes (it starts in
`processing`; the catch handler records the error message and elapsed time
and sets `failed`, unless that very write fails, in which case the row is
left as the progress updates left it: still `processing`). -/
def processDocumentAsync (env : IngestEnv) (filename : String) : DocumentRecord :=
  match ingestOutcome env filename with
  | .ok (_, totalChunks) =>
    { status := .completed
      metadataError := none
      metadataProcessingTimeSeconds := some env.elapsedSeconds
      totalChunks := some totalChunks }
  | .error msg =>
    if env.failedUpdateSucceeds then
      { status := .failed
        metadataError := some msg
        metadataProcessingTimeSeconds := some env.elapsedSeconds
        totalChunks := none }
    else
      { status := .processing
        metadataError := none
        metadataProcessingTimeSeconds := none
        totalChunks := none }

/-- C4: provided the catch-handler's terminal status write succeeds (the
spec's "best-effort but always attempted" caveat), any step throwing makes
the orchestrator record the thrown message and the elapsed seconds in the
Document metadata and set status `failed`; and whatever happens, the
Document never finishes in `processing`. -/
theorem processDocumentAsync_terminal (env : IngestEnv) (filename : String)
    (hwrite : env.failedUpdateSucceeds = true) :
    (∀ msg, ingestOutcome env filename = .error msg →
        processDocumentAsync env filename =
          { status := .failed
            metadataError := some msg
            metadataProcessingTimeSeconds := some env.elapsedSeconds
            totalChunks := none }) ∧
      (processDocumentAsync env filename).status ≠ .processing := by
  constructor
  · intro msg hmsg
    unfold processDocumentAsync
    rw [hmsg, hwrite]
    simp
  · unfold processDocumentAsync
    rcases houtcome : ingestOutcome env filename with msg | ok
    · rw [hwrite]
      simp
    · simp

def c4Env : IngestEnv :=
  { extractResult := .error "Text extraction timeout (60s)"
    embedResult := .ok []
    upsertResult := .ok []
    chunkInsertErrors := []
    finalUpdateError := none
    failedUpdateSucceeds := true
    elapsedSeconds := 61 }

/-- C4 witness: a timed-out extraction leaves the Document `failed` with the
error message and elapsed time recorded. -/
theorem processDocumentAsync_terminal_witness :
    c4Env.failedUpdateSucceeds = true ∧
      ((∀ msg, ingestOutcome c4Env "a.pdf" = .error msg →
          processDocumentAsync c4Env "a.pdf" =
            { status := .failed
              metadataError := some msg
              metadataProcessingTimeSeconds := some c4Env.elapsedSeconds
              totalChunks := none }) ∧
        (processDocumentAsync c4Env "a.pdf").status ≠ .processing) :=
  ⟨rfl, processDocumentAsync_terminal c4Env "a.pdf" rfl⟩


end Legal
